import Mathlib

/-!
Verification of the `basic_logging` package (`src/basic_logging/__init__.py`).

The development shallowly embeds the package's core logic:

* a value model `Val` for Python values held in configuration dictionaries,
  with dictionaries as insertion-ordered association lists (`PyDict`);
* `deepmerge1` / `deepmerge`, the value-level semantics of `deepmerge`;
* a heap model (`Heap`, `dmH`) of the same `deepmerge` function with explicit
  object identities, used to reason about mutation and aliasing;
* a timestamp model of `ExtendedFormatter.formatTime`;
* a field-assembly model of `CustomJsonFormatter.add_fields`;
* a model of the configuration document built by `configure_logging`.
-/

/-- Python values stored in the nested configuration dictionaries: strings,
integers, booleans, `None`, lists and nested dictionaries.  A dictionary is an
insertion-ordered association list, matching CPython dict ordering. -/
inductive Val where
  | str : String → Val
  | int : Int → Val
  | bool : Bool → Val
  | null : Val
  | list : List Val → Val
  | dict : List (String × Val) → Val

/-- A Python dictionary with string keys. -/
abbrev PyDict := List (String × Val)

/-- Python `isinstance(v, dict)`. -/
def Val.isDict : Val → Bool
  | Val.dict _ => true
  | _ => false

/-- Dictionary lookup `d.get(k)` / `d[k]` on an association list: the value at
the first occurrence of the key. -/
def aget {α : Type} : List (String × α) → String → Option α
  | [], _ => none
  | (k', v) :: rest, k => if k' = k then some v else aget rest k

/-- Dictionary assignment `d[k] = v` on an association list with CPython
semantics: an existing key keeps its position and gets the new value, a new
key is appended at the end. -/
def aset {α : Type} : List (String × α) → String → α → List (String × α)
  | [], k, v => [(k, v)]
  | (k', v') :: rest, k, v =>
      if k' = k then (k, v) :: rest else (k', v') :: aset rest k v

/-- The keys of a dictionary, in order. -/
def keysOf {α : Type} (d : List (String × α)) : List String := d.map Prod.fst

/-- One pass of `deepmerge`'s inner loop: `for k, v in other.items(): ...`,
merging a single override dictionary `other` into `mapping`.  For each item,
if the key is present in the current mapping with a dict value and the
override value is a dict, the recursive `deepmerge(mapping[k], v)` result is
stored; otherwise the override value replaces the current value
(`mapping[k] = v`). -/
def deepmerge1 : PyDict → PyDict → PyDict
  | m, [] => m
  | m, (k, Val.dict osub) :: rest =>
      (match aget m k with
       | some (Val.dict sub) => deepmerge1 (aset m k (Val.dict (deepmerge1 sub osub))) rest
       | _ => deepmerge1 (aset m k (Val.dict osub)) rest)
  | m, (k, v) :: rest => deepmerge1 (aset m k v) rest

/-- Full `deepmerge(mapping, *others)`: the top-level copy (identity at the value
level) followed by the left-to-right fold of the override dictionaries. -/
def deepmerge (mapping : PyDict) (others : List PyDict) : PyDict :=
  others.foldl deepmerge1 mapping

/-- A `datetime` value as `ExtendedFormatter.formatTime` manipulates it: a
wall-clock reading in microseconds together with an optional UTC offset in
minutes (`none` models a naive value).  Times are idealized to integer
microseconds. -/
structure PyDateTime where
  wallMicros : Int
  tzMin : Option Int

/-- Python `datetime.fromtimestamp(record.created)`: a naive datetime whose
wall-clock reading is the instant shifted by the machine's local UTC offset
`localOffMin` (in minutes). -/
def fromtimestamp (createdMicros localOffMin : Int) : PyDateTime :=
  ⟨createdMicros + localOffMin * 60000000, none⟩

/-- Python `dt.astimezone(tz)`: convert to the target zone (`none` = the machine's
local zone).  A naive receiver is interpreted as local time. -/
def astimezone (d : PyDateTime) (tz : Option Int) (localOffMin : Int) : PyDateTime :=
  let instant := d.wallMicros - (d.tzMin.getD localOffMin) * 60000000
  let off := tz.getD localOffMin
  ⟨instant + off * 60000000, some off⟩

/-- The `tz` property of `ExtendedFormatter`: `timezone.utc` when `self.utc`,
otherwise `None`. -/
def tzOf (utc : Bool) : Option Int := if utc then some 0 else none

/-- Method `ExtendedFormatter.formatTime`'s datetime value:
`datetime.fromtimestamp(record.created).astimezone(self.tz)`, the value to
which the strftime pattern is applied. -/
def formatTimeDT (utc : Bool) (createdMicros localOffMin : Int) : PyDateTime :=
  astimezone (fromtimestamp createdMicros localOffMin) (tzOf utc) localOffMin

/-- Two-digit zero-padded decimal rendering. -/
def twoDigits (n : Nat) : String := (if n < 10 then "0" else "") ++ toString n

/-- strftime's rendering of a UTC offset of `m` minutes as `±HHMM`. -/
def offsetStr (m : Int) : String :=
  (if m < 0 then "-" else "+") ++ twoDigits (m.natAbs / 60) ++ twoDigits (m.natAbs % 60)

/-- strftime's expansion of the `%z` specifier: the attached UTC offset, or
the empty string on a naive value. -/
def strftimeZ (d : PyDateTime) : String :=
  match d.tzMin with
  | none => ""
  | some off => offsetStr off

/-- Lookup `self.rename_fields.get(field, field)`: the output key used for a
referenced field. -/
def renameFor (rename : List (String × String)) (f : String) : String :=
  match aget rename f with
  | some n => n
  | none => f

/-- Modelled from the spec: the external `JsonFormatter.add_fields` step that
is not part of this repository.  Per the spec it writes, for each field
referenced in the message template, one entry into the log record "keyed by
the field's canonical name *unless* present in the rename map, in which case
the renamed key is used, value taken from the record". -/
def baseAddFields (rename : List (String × String)) (record : String → Val) :
    List String → PyDict → PyDict
  | [], lr => lr
  | f :: rest, lr => baseAddFields rename record rest (aset lr (renameFor rename f) (record f))

/-- Update `d.update(other)` for Python dicts. -/
def dictUpdate : PyDict → PyDict → PyDict
  | d, [] => d
  | d, (k, v) :: rest => dictUpdate (aset d k v) rest

/-- Method `CustomJsonFormatter.add_fields`: starting from the empty log record it
first runs `log_record.update(self.static_fields)` and then the base class's
field computation (`super().add_fields`) on top. -/
def addFieldsCJF (static : PyDict) (rename : List (String × String))
    (required : List String) (record : String → Val) : PyDict :=
  baseAddFields rename record required (dictUpdate [] static)

/-- The configuration document literal built by `configure_logging` before
the optional merge of `extra`.  The level is a `Val` since the Python
parameter admits both strings and ints. -/
def buildCfg (name : String) (level : Val) (fmt time_fmt : String) (utc json : Bool)
    (rename_fields static_fields : Val) : PyDict :=
  [("version", Val.int 1),
   ("disable_existing_loggers", Val.bool false),
   ("formatters", Val.dict
      [("simple", Val.dict
          [("()", Val.str "ExtendedFormatter"), ("utc", Val.bool utc),
           ("format", Val.str fmt), ("datefmt", Val.str time_fmt)]),
       ("json", Val.dict
          [("()", Val.str "CustomJsonFormatter"), ("format", Val.str fmt),
           ("datefmt", Val.str time_fmt), ("utc", Val.bool utc),
           ("rename_fields", rename_fields), ("static_fields", static_fields)])]),
   ("handlers", Val.dict
      [("console", Val.dict
          [("class", Val.str "logging.StreamHandler"), ("level", level),
           ("formatter", Val.str (if json then "json" else "simple")),
           ("stream", Val.str "ext://sys.stdout")])]),
   ("loggers", Val.dict
      [(name, Val.dict [("level", level), ("handlers", Val.list [Val.str "console"])])])]

/-- The configuration document `configure_logging` passes to the logging
substrate: the built document, deep-merged with `extra` only when `extra` is
truthy (`if extra: cfg = deepmerge(cfg, extra)`). -/
def configureLoggingCfg (name : String) (level : Val) (fmt time_fmt : String)
    (utc json : Bool) (rename_fields static_fields : Val)
    (extra : Option PyDict) : PyDict :=
  let cfg := buildCfg name level fmt time_fmt utc json rename_fields static_fields
  match extra with
  | none => cfg
  | some e => if e.isEmpty then cfg else deepmerge cfg [e]

/-- Iterated lookup along a key path in a nested configuration document. -/
def getPath (d : PyDict) : List String → Option Val
  | [] => some (Val.dict d)
  | [k] => aget d k
  | k :: rest =>
      match aget d k with
      | some (Val.dict sub) => getPath sub rest
      | _ => none

/-- Values stored in heap-modelled dictionaries: primitives, or a reference
to another dictionary object.  Used to reason about mutation and aliasing in
`deepmerge`. -/
inductive HVal where
  | str : String → HVal
  | int : Int → HVal
  | ref : Nat → HVal
deriving DecidableEq

/-- The content of one dictionary object. -/
abbrev HDict := List (String × HVal)

/-- A heap of dictionary objects; the address of an object is its index. -/
structure Heap where
  cells : List HDict
deriving DecidableEq

/-- Number of allocated objects. -/
def Heap.size (h : Heap) : Nat := h.cells.length

/-- The content of the object at address `i`. -/
def Heap.get? (h : Heap) (i : Nat) : Option HDict := h.cells.get? i

/-- In-place mutation of the object at address `i`. -/
def Heap.setCell (h : Heap) (i : Nat) (d : HDict) : Heap := ⟨h.cells.set i d⟩

/-- Allocation of a fresh object; its address is the previous heap size. -/
def Heap.alloc (h : Heap) (d : HDict) : Heap := ⟨h.cells ++ [d]⟩

/-- The heap-level guard
`k in mapping and isinstance(mapping[k], dict) and isinstance(v, dict)`:
both the current value at the key and the override value are dictionary
references; on success returns the two addresses. -/
def bothRefs : Option HVal → HVal → Option (Nat × Nat)
  | some (HVal.ref sa), HVal.ref oa => some (sa, oa)
  | _, _ => none

/-- One item of the inner loop of the heap-level `deepmerge`, acting on the
copy at address `r`: `mapping[k] = deepmerge(mapping[k], v)` when both the
current value and the override value are dict references, otherwise
`mapping[k] = v`.  `dm` is the recursive call with one override. -/
def entryStep (dm : Heap → Nat → Nat → Option (Heap × Nat)) (r : Nat)
    (acc : Option Heap) (kv : String × HVal) : Option Heap :=
  match acc with
  | none => none
  | some h =>
    match h.get? r with
    | none => none
    | some cur =>
      match bothRefs (aget cur kv.1) kv.2 with
      | some (sa, oa) =>
        match dm h sa oa with
        | none => none
        | some (h2, m) =>
          match h2.get? r with
          | none => none
          | some cur2 => some (h2.setCell r (aset cur2 kv.1 (HVal.ref m)))
      | none => some (h.setCell r (aset cur kv.1 kv.2))

/-- One override of the outer loop of the heap-level `deepmerge`: iterate
`entryStep` over the items of the override object at address `o`. -/
def otherStep (dm : Heap → Nat → Nat → Option (Heap × Nat)) (r : Nat)
    (acc : Option Heap) (o : Nat) : Option Heap :=
  match acc with
  | none => none
  | some h =>
    match h.get? o with
    | none => none
    | some od => od.foldl (entryStep dm r) (some h)

/-- Heap-level `deepmerge(mapping, *others)` with explicit object identity:
`mapping = mapping.copy()` allocates a fresh top-level object, then the
overrides are folded in; nested merges recurse through `dmH` with one
override.  `fuel` bounds the recursion depth (Python would not terminate on
cyclic inputs either); `none` means out of fuel or a dangling address. -/
def dmH : Nat → Heap → Nat → List Nat → Option (Heap × Nat)
  | 0, _, _, _ => none
  | Nat.succ f, h, a, others =>
    match h.get? a with
    | none => none
    | some base =>
      let r := h.size
      let h1 := h.alloc base
      match others.foldl (otherStep (fun hh sa oa => dmH f hh sa [oa]) r) (some h1) with
      | none => none
      | some h2 => some (h2, r)

/-- Heap `h'` extends `h` leaving every object except the one at `r` unchanged. -/
def FramedAt (r : Nat) (h h' : Heap) : Prop :=
  h.size ≤ h'.size ∧ ∀ i, i < h.size → i ≠ r → h'.get? i = h.get? i

/-- Frame property of a merge function: on success it leaves every
pre-existing object unchanged and returns the address freshly allocated at
the old heap size. -/
def DMFrame (dm : Heap → Nat → Nat → Option (Heap × Nat)) : Prop :=
  ∀ h a o h' m, dm h a o = some (h', m) →
    h.size ≤ h'.size ∧ (∀ i, i < h.size → h'.get? i = h.get? i) ∧
      m = h.size ∧ m < h'.size

/-- The branch applied to one override item in `deepmerge`'s loop body:
recursive merge when the current value and the override value are both
dictionaries, plain replacement otherwise. -/
def mergeStep : Option Val → Val → Val
  | some (Val.dict sub), Val.dict osub => Val.dict (deepmerge1 sub osub)
  | _, v => v

theorem mergeStep_not_dict (x : Option Val) (v : Val) (h : Val.isDict v = false) :
    mergeStep x v = v := by
  rcases x with _ | w
  · cases v <;> simp_all [mergeStep, Val.isDict]
  · cases w <;> cases v <;> simp_all [mergeStep, Val.isDict]

theorem mergeStep_base_not_dict (x : Option Val) (v : Val)
    (h : ∀ sub, x ≠ some (Val.dict sub)) : mergeStep x v = v := by
  rcases x with _ | w
  · cases v <;> simp [mergeStep]
  · cases w <;> cases v <;> simp_all [mergeStep]

theorem aget_aset_self {α : Type} (d : List (String × α)) (k : String) (v : α) :
    aget (aset d k v) k = some v := by
  induction d with
  | nil => simp [aget, aset]
  | cons hd tl ih =>
      obtain ⟨k', v'⟩ := hd
      by_cases hk : k' = k <;> simp [aget, aset, hk, ih]

theorem aget_aset_ne {α : Type} (d : List (String × α)) (k k' : String) (v : α)
    (h : k' ≠ k) : aget (aset d k v) k' = aget d k' := by
  induction d with
  | nil =>
      have h1 : ¬ k = k' := fun hh => h hh.symm
      simp [aget, aset, h1]
  | cons hd tl ih =>
      obtain ⟨k₁, v₁⟩ := hd
      by_cases hk : k₁ = k
      · subst hk
        have h1 : ¬ k₁ = k' := fun hh => h hh.symm
        simp [aget, aset, h1]
      · by_cases hk' : k₁ = k'
        · subst hk'
          simp [aget, aset, hk]
        · simp [aget, aset, hk, hk', ih]

theorem aget_eq_none_of_not_mem {α : Type} (d : List (String × α)) (k : String)
    (h : k ∉ keysOf d) : aget d k = none := by
  induction d with
  | nil => rfl
  | cons hd tl ih =>
      obtain ⟨k₁, v₁⟩ := hd
      simp only [keysOf, List.map_cons, List.mem_cons] at h
      push_neg at h
      have h1 : ¬ k₁ = k := fun hh => h.1 hh.symm
      simp [aget, h1, ih (by simpa [keysOf] using h.2)]

theorem mem_keys_aset {α : Type} (d : List (String × α)) (k k' : String) (v : α) :
    k' ∈ keysOf (aset d k v) ↔ k' ∈ keysOf d ∨ k' = k := by
  induction d with
  | nil => simp [aset, keysOf]
  | cons hd tl ih =>
      obtain ⟨k₁, v₁⟩ := hd
      by_cases hk : k₁ = k
      · subst hk
        by_cases hk' : k' = k₁ <;> simp [aset, keysOf, hk'] at ih ⊢
      · simp [aset, hk, keysOf] at ih ⊢
        rw [ih]
        tauto

theorem deepmerge1_nil (m : PyDict) : deepmerge1 m [] = m := by
  simp [deepmerge1]

/-- Unfolding of one iteration of `deepmerge`'s loop: the item `(k, v)` is
written into the accumulating mapping as `mergeStep` of the current value at
`k` and `v`. -/
theorem deepmerge1_cons (m : PyDict) (k : String) (v : Val) (rest : PyDict) :
    deepmerge1 m ((k, v) :: rest) =
      deepmerge1 (aset m k (mergeStep (aget m k) v)) rest := by
  cases v with
  | dict osub =>
      simp only [deepmerge1]
      rcases aget m k with _ | w
      · simp [mergeStep]
      · cases w <;> simp [mergeStep]
  | str s => simp only [deepmerge1]; rw [mergeStep_not_dict _ _ (by simp [Val.isDict])]
  | int n => simp only [deepmerge1]; rw [mergeStep_not_dict _ _ (by simp [Val.isDict])]
  | bool b => simp only [deepmerge1]; rw [mergeStep_not_dict _ _ (by simp [Val.isDict])]
  | null => simp only [deepmerge1]; rw [mergeStep_not_dict _ _ (by simp [Val.isDict])]
  | list l => simp only [deepmerge1]; rw [mergeStep_not_dict _ _ (by simp [Val.isDict])]

/-- Keys absent from an override keep the base's value. -/
theorem deepmerge1_absent (o : PyDict) :
    ∀ (m : PyDict) (k : String), k ∉ keysOf o →
      aget (deepmerge1 m o) k = aget m k := by
  induction o with
  | nil => intro m k _; rw [deepmerge1_nil]
  | cons hd rest ih =>
      intro m k hk
      obtain ⟨k₁, v₁⟩ := hd
      simp only [keysOf, List.map_cons, List.mem_cons] at hk
      push_neg at hk
      rw [deepmerge1_cons, ih _ _ (by simpa [keysOf] using hk.2),
        aget_aset_ne _ _ _ _ hk.1]

/-- For an override whose keys are distinct (as in any Python dict), the value
the merge produces at each overridden key is `mergeStep` of the base's value
and the override's value. -/
theorem deepmerge1_lookup (o : PyDict) :
    ∀ (m : PyDict) (k : String) (v : Val), (keysOf o).Nodup → aget o k = some v →
      aget (deepmerge1 m o) k = some (mergeStep (aget m k) v) := by
  induction o with
  | nil => intro m k v _ hv; simp [aget] at hv
  | cons hd rest ih =>
      intro m k v hnd hv
      obtain ⟨k₁, v₁⟩ := hd
      have hnd2 : (k₁ :: keysOf rest).Nodup := hnd
      rw [deepmerge1_cons]
      by_cases hk : k₁ = k
      · subst hk
        have hv1 : v₁ = v := by simpa [aget] using hv
        subst hv1
        rw [deepmerge1_absent _ _ _ (List.nodup_cons.mp hnd2).1, aget_aset_self]
      · have hrest : aget rest k = some v := by
          simpa [aget, hk] using hv
        have hne : k ≠ k₁ := fun hh => hk hh.symm
        rw [ih _ _ _ (List.nodup_cons.mp hnd2).2 hrest, aget_aset_ne _ _ _ _ hne]

theorem heap_get_lt_size (h : Heap) (i : Nat) (d : HDict) (hg : h.get? i = some d) :
    i < h.size := by
  by_contra hlt
  push_neg at hlt
  rw [Heap.get?, List.get?_eq_none.mpr hlt] at hg
  exact Option.noConfusion hg

theorem heap_size_setCell (h : Heap) (i : Nat) (d : HDict) :
    (h.setCell i d).size = h.size := by
  simp [Heap.setCell, Heap.size]

theorem heap_get_setCell_ne (h : Heap) (i r : Nat) (d : HDict) (hne : i ≠ r) :
    (h.setCell r d).get? i = h.get? i := by
  rw [Heap.setCell, Heap.get?, Heap.get?]
  exact List.get?_set_ne _ _ (fun hh => hne hh.symm)

theorem heap_size_alloc (h : Heap) (d : HDict) : (h.alloc d).size = h.size + 1 := by
  simp [Heap.alloc, Heap.size]

theorem heap_get_alloc_lt (h : Heap) (d : HDict) (i : Nat) (hi : i < h.size) :
    (h.alloc d).get? i = h.get? i := by
  rw [Heap.alloc, Heap.get?, Heap.get?]
  exact List.get?_append hi

theorem heap_get_alloc_self (h : Heap) (d : HDict) :
    (h.alloc d).get? h.size = some d := by
  rw [Heap.alloc, Heap.get?, Heap.size]
  exact List.get?_concat_length _ _

theorem framedAt_rfl (r : Nat) (h : Heap) : FramedAt r h h :=
  ⟨le_refl _, fun _ _ _ => rfl⟩

theorem framedAt_trans (r : Nat) (h1 h2 h3 : Heap)
    (a : FramedAt r h1 h2) (b : FramedAt r h2 h3) : FramedAt r h1 h3 := by
  refine ⟨a.1.trans b.1, fun i hi hir => ?_⟩
  rw [b.2 i (lt_of_lt_of_le hi a.1) hir, a.2 i hi hir]

theorem foldl_entryStep_none (dm : Heap → Nat → Nat → Option (Heap × Nat)) (r : Nat)
    (es : List (String × HVal)) : List.foldl (entryStep dm r) none es = none := by
  induction es with
  | nil => rfl
  | cons kv rest ih => simpa [entryStep] using ih

theorem foldl_otherStep_none (dm : Heap → Nat → Nat → Option (Heap × Nat)) (r : Nat)
    (os : List Nat) : List.foldl (otherStep dm r) none os = none := by
  induction os with
  | nil => rfl
  | cons o rest ih => simpa [otherStep] using ih

theorem entryStep_frame (dm : Heap → Nat → Nat → Option (Heap × Nat))
    (hdm : DMFrame dm) (r : Nat) (kv : String × HVal) (h h1 : Heap)
    (hs : entryStep dm r (some h) kv = some h1) : FramedAt r h h1 := by
  simp only [entryStep] at hs
  rcases hcur : h.get? r with _ | cur
  · simp only [hcur] at hs
    exact Option.noConfusion hs
  · simp only [hcur] at hs
    rcases hbr : bothRefs (aget cur kv.1) kv.2 with _ | ⟨sa, oa⟩
    · simp only [hbr] at hs
      cases hs
      exact ⟨le_of_eq (heap_size_setCell _ _ _).symm,
        fun i hi hir => heap_get_setCell_ne _ _ _ _ hir⟩
    · simp only [hbr] at hs
      rcases hrec : dm h sa oa with _ | hm
      · simp only [hrec] at hs
        exact Option.noConfusion hs
      · obtain ⟨h2, m⟩ := hm
        simp only [hrec] at hs
        obtain ⟨hsz, hunch, _, _⟩ := hdm h sa oa h2 m hrec
        rcases hcur2 : h2.get? r with _ | cur2
        · simp only [hcur2] at hs
          exact Option.noConfusion hs
        · simp only [hcur2] at hs
          cases hs
          refine ⟨?_, fun i hi hir => ?_⟩
          · rw [heap_size_setCell]; exact hsz
          · rw [heap_get_setCell_ne _ _ _ _ hir, hunch i hi]

theorem foldl_entryStep_frame (dm : Heap → Nat → Nat → Option (Heap × Nat))
    (hdm : DMFrame dm) (r : Nat) :
    ∀ (es : List (String × HVal)) (h h' : Heap),
      List.foldl (entryStep dm r) (some h) es = some h' → FramedAt r h h' := by
  intro es
  induction es with
  | nil => intro h h' hs; cases hs; exact framedAt_rfl r h
  | cons kv rest ih =>
      intro h h' hs
      rw [List.foldl_cons] at hs
      rcases he : entryStep dm r (some h) kv with _ | h1
      · rw [he, foldl_entryStep_none] at hs
        exact Option.noConfusion hs
      · rw [he] at hs
        exact framedAt_trans r h h1 h' (entryStep_frame dm hdm r kv h h1 he) (ih h1 h' hs)

theorem otherStep_frame (dm : Heap → Nat → Nat → Option (Heap × Nat))
    (hdm : DMFrame dm) (r o : Nat) (h h1 : Heap)
    (hs : otherStep dm r (some h) o = some h1) : FramedAt r h h1 := by
  simp only [otherStep] at hs
  rcases ho : h.get? o with _ | od
  · simp only [ho] at hs
    exact Option.noConfusion hs
  · simp only [ho] at hs
    exact foldl_entryStep_frame dm hdm r od h h1 hs

theorem foldl_otherStep_frame (dm : Heap → Nat → Nat → Option (Heap × Nat))
    (hdm : DMFrame dm) (r : Nat) :
    ∀ (os : List Nat) (h h' : Heap),
      List.foldl (otherStep dm r) (some h) os = some h' → FramedAt r h h' := by
  intro os
  induction os with
  | nil => intro h h' hs; cases hs; exact framedAt_rfl r h
  | cons o rest ih =>
      intro h h' hs
      rw [List.foldl_cons] at hs
      rcases he : otherStep dm r (some h) o with _ | h1
      · rw [he, foldl_otherStep_none] at hs
        exact Option.noConfusion hs
      · rw [he] at hs
        exact framedAt_trans r h h1 h' (otherStep_frame dm hdm r o h h1 he) (ih h1 h' hs)

/-- Frame property of the heap-level `deepmerge`: on success every
pre-existing object — the base, the overrides, and every nested dictionary at
any depth, all of which live at addresses below the old heap size — is left
unchanged, and the returned address is the fresh one allocated by the
top-level `mapping.copy()`. -/
theorem dmH_frame :
    ∀ (f : Nat) (h : Heap) (a : Nat) (os : List Nat) (h' : Heap) (r : Nat),
      dmH f h a os = some (h', r) →
      h.size ≤ h'.size ∧ (∀ i, i < h.size → h'.get? i = h.get? i) ∧
        r = h.size ∧ r < h'.size := by
  intro f
  induction f with
  | zero => intro h a os h' r hs; exact Option.noConfusion hs
  | succ f ih =>
      intro h a os h' r hs
      have hdm : DMFrame (fun hh sa oa => dmH f hh sa [oa]) := by
        intro hh aa oo hh' mm hmm
        exact ih hh aa [oo] hh' mm hmm
      simp only [dmH] at hs
      split at hs
      · exact Option.noConfusion hs
      · split at hs
        · exact Option.noConfusion hs
        · cases hs
          rename_i base hbase hh2 hfold
          obtain ⟨hsz, hunch⟩ := foldl_otherStep_frame _ hdm h.size os (h.alloc base) h' hfold
          refine ⟨?_, fun i hi => ?_, rfl, ?_⟩
          · calc h.size ≤ h.size + 1 := Nat.le_succ _
              _ = (h.alloc base).size := (heap_size_alloc h base).symm
              _ ≤ h'.size := hsz
          · rw [hunch i (by rw [heap_size_alloc]; omega) (by omega),
              heap_get_alloc_lt h base i hi]
          · calc h.size < h.size + 1 := Nat.lt_succ_self _
              _ = (h.alloc base).size := (heap_size_alloc h base).symm
              _ ≤ h'.size := hsz

/-- A successful heap-level merge with no overrides is exactly the shallow
copy of the base object. -/
theorem dmH_nil (f : Nat) (h : Heap) (a : Nat) (h' : Heap) (r : Nat)
    (hs : dmH f h a [] = some (h', r)) :
    ∃ base, h.get? a = some base ∧ h' = h.alloc base ∧ r = h.size := by
  cases f with
  | zero => exact Option.noConfusion hs
  | succ f =>
      simp only [dmH] at hs
      split at hs
      · exact Option.noConfusion hs
      · rename_i base hbase
        simp only [List.foldl_nil] at hs
        cases hs
        exact ⟨base, hbase, rfl, rfl⟩

/-- A successful heap-level merge starts from a valid base address. -/
theorem dmH_base_lt (f : Nat) (h : Heap) (a : Nat) (os : List Nat) (h' : Heap) (r : Nat)
    (hs : dmH f h a os = some (h', r)) : a < h.size := by
  cases f with
  | zero => exact Option.noConfusion hs
  | succ f =>
      simp only [dmH] at hs
      split at hs
      · exact Option.noConfusion hs
      · rename_i base hbase
        exact heap_get_lt_size h a base hbase

theorem aget_of_mem_nodup {α : Type} (d : List (String × α)) (k : String) (v : α)
    (hmem : (k, v) ∈ d) (hnd : (keysOf d).Nodup) : aget d k = some v := by
  induction d with
  | nil => simp at hmem
  | cons hd tl ih =>
      obtain ⟨k₁, v₁⟩ := hd
      have hnd2 : (k₁ :: keysOf tl).Nodup := hnd
      rcases List.mem_cons.mp hmem with heq | htl
      · cases heq
        simp [aget]
      · have hk : k₁ ≠ k := by
          intro hh
          subst hh
          exact (List.nodup_cons.mp hnd2).1 (List.mem_map.mpr ⟨(k₁, v), htl, rfl⟩)
        simp [aget, hk, ih htl (List.nodup_cons.mp hnd2).2]

theorem aget_dictUpdate_absent (other : PyDict) :
    ∀ (d : PyDict) (k : String), k ∉ keysOf other →
      aget (dictUpdate d other) k = aget d k := by
  induction other with
  | nil => intro d k _; rfl
  | cons hd rest ih =>
      intro d k hk
      obtain ⟨k₁, v₁⟩ := hd
      simp only [keysOf, List.map_cons, List.mem_cons] at hk
      push_neg at hk
      rw [dictUpdate, ih _ _ (by simpa [keysOf] using hk.2),
        aget_aset_ne _ _ _ _ hk.1]

theorem aget_dictUpdate_present (other : PyDict) :
    ∀ (d : PyDict) (k : String) (v : Val), (keysOf other).Nodup →
      aget other k = some v → aget (dictUpdate d other) k = some v := by
  induction other with
  | nil => intro d k v _ hv; simp [aget] at hv
  | cons hd rest ih =>
      intro d k v hnd hv
      obtain ⟨k₁, v₁⟩ := hd
      have hnd2 : (k₁ :: keysOf rest).Nodup := hnd
      by_cases hk : k₁ = k
      · subst hk
        have hv1 : v₁ = v := by simpa [aget] using hv
        subst hv1
        rw [dictUpdate, aget_dictUpdate_absent _ _ _ (List.nodup_cons.mp hnd2).1,
          aget_aset_self]
      · have hrest : aget rest k = some v := by simpa [aget, hk] using hv
        rw [dictUpdate]
        exact ih _ _ _ (List.nodup_cons.mp hnd2).2 hrest

theorem mem_keys_dictUpdate (other : PyDict) :
    ∀ (d : PyDict) (k : String),
      k ∈ keysOf (dictUpdate d other) ↔ k ∈ keysOf d ∨ k ∈ keysOf other := by
  induction other with
  | nil => intro d k; simp [dictUpdate, keysOf]
  | cons hd rest ih =>
      intro d k
      obtain ⟨k₁, v₁⟩ := hd
      rw [dictUpdate, ih]
      rw [mem_keys_aset]
      simp [keysOf]
      tauto

theorem baseAddFields_absent (rename : List (String × String)) (record : String → Val) :
    ∀ (required : List String) (lr : PyDict) (k : String),
      k ∉ required.map (renameFor rename) →
      aget (baseAddFields rename record required lr) k = aget lr k := by
  intro required
  induction required with
  | nil => intro lr k _; rfl
  | cons f rest ih =>
      intro lr k hk
      simp only [List.map_cons, List.mem_cons] at hk
      push_neg at hk
      rw [baseAddFields, ih _ _ hk.2, aget_aset_ne _ _ _ _ hk.1]

theorem baseAddFields_present (rename : List (String × String)) (record : String → Val) :
    ∀ (required : List String) (lr : PyDict) (f : String),
      (required.map (renameFor rename)).Nodup → f ∈ required →
      aget (baseAddFields rename record required lr) (renameFor rename f) =
        some (record f) := by
  intro required
  induction required with
  | nil => intro lr f _ hf; simp at hf
  | cons f₁ rest ih =>
      intro lr f hnd hf
      rw [List.map_cons] at hnd
      rcases List.mem_cons.mp hf with heq | htl
      · subst heq
        rw [baseAddFields,
          baseAddFields_absent _ _ _ _ _ (List.nodup_cons.mp hnd).1,
          aget_aset_self]
      · rw [baseAddFields]
        exact ih _ _ (List.nodup_cons.mp hnd).2 htl

theorem mem_keys_baseAddFields (rename : List (String × String)) (record : String → Val) :
    ∀ (required : List String) (lr : PyDict) (k : String),
      k ∈ keysOf (baseAddFields rename record required lr) ↔
        k ∈ keysOf lr ∨ k ∈ required.map (renameFor rename) := by
  intro required
  induction required with
  | nil => intro lr k; simp [baseAddFields]
  | cons f rest ih =>
      intro lr k
      rw [baseAddFields, ih, mem_keys_aset]
      simp
      tauto

theorem mem_keys_iff_aget {α : Type} (d : List (String × α)) (k : String) :
    k ∈ keysOf d ↔ ∃ v, aget d k = some v := by
  induction d with
  | nil => simp [keysOf, aget]
  | cons hd tl ih =>
      obtain ⟨k₁, v₁⟩ := hd
      by_cases hk : k₁ = k
      · subst hk
        simp [keysOf, aget]
      · have hk2 : k ≠ k₁ := fun hh => hk hh.symm
        have h1 : keysOf ((k₁, v₁) :: tl) = k₁ :: keysOf tl := rfl
        have h2 : ∀ v : α, (aget ((k₁, v₁) :: tl) k = some v) ↔ (aget tl k = some v) := by
          intro v
          simp [aget, hk]
        rw [h1, List.mem_cons]
        simp only [h2]
        simp [hk2, ih]

/-- C2: for every base mapping and every override mapping (whose keys are
distinct, as in any Python dict), `deepmerge` produces a mapping where, for
each key present in the override, if both the base's current value and the
override's value are dictionaries the result holds their recursive deep
merge, and otherwise the result holds exactly the override's value
(non-mapping values such as lists are replaced wholesale); keys absent from
the override keep the base's value. -/
theorem C2_deepmerge_override (m o : PyDict) (hnd : (keysOf o).Nodup) (k : String) :
    (aget o k = none → aget (deepmerge m [o]) k = aget m k) ∧
    (∀ sub osub, aget m k = some (Val.dict sub) → aget o k = some (Val.dict osub) →
      aget (deepmerge m [o]) k = some (Val.dict (deepmerge sub [osub]))) ∧
    (∀ v, aget o k = some v →
      (Val.isDict v = false ∨ ∀ sub, aget m k ≠ some (Val.dict sub)) →
      aget (deepmerge m [o]) k = some v) := by
  refine ⟨fun habs => ?_, fun sub osub hm ho => ?_, fun v ho hnot => ?_⟩
  · apply deepmerge1_absent
    intro hk
    obtain ⟨v, hv⟩ := (mem_keys_iff_aget o k).mp hk
    rw [hv] at habs
    exact Option.noConfusion habs
  · have hdef : deepmerge m [o] = deepmerge1 m o := rfl
    rw [hdef, deepmerge1_lookup o m k (Val.dict osub) hnd ho, hm]
    rfl
  · have hdef : deepmerge m [o] = deepmerge1 m o := rfl
    rw [hdef, deepmerge1_lookup o m k v hnd ho]
    rcases hnot with hv | hm
    · rw [mergeStep_not_dict _ _ hv]
    · rw [mergeStep_base_not_dict _ _ hm]

/-- C2 witness at concrete inputs. -/
theorem C2_witness :
    aget (deepmerge [("a", Val.int 1), ("b", Val.int 5)] [[("a", Val.int 2)]]) "b" =
      aget [("a", Val.int 1), ("b", Val.int 5)] "b" :=
  (C2_deepmerge_override [("a", Val.int 1), ("b", Val.int 5)] [("a", Val.int 2)]
    (by decide) "b").1 rfl

/-- C5: `deepmerge` is associative left-to-right over its override arguments:
merging `b` then `c` in two calls equals one call with both overrides. -/
theorem C5_deepmerge_assoc (a b c : PyDict) :
    deepmerge (deepmerge a [b]) [c] = deepmerge a [b, c] := rfl

/-- C6: the heap-level `deepmerge` never mutates the original base object
(its top-level container is copied first), the returned object is never the
base object itself, and merging with zero overrides returns an object whose
content equals the base's. -/
theorem C6_deepmerge_base_preserved (f : Nat) (h : Heap) (a : Nat) (os : List Nat)
    (h' : Heap) (r : Nat) (hs : dmH f h a os = some (h', r)) :
    h'.get? a = h.get? a ∧ r ≠ a ∧ (os = [] → h'.get? r = h.get? a) := by
  have ha := dmH_base_lt f h a os h' r hs
  obtain ⟨_, hunch, hr, _⟩ := dmH_frame f h a os h' r hs
  refine ⟨hunch a ha, by omega, fun hos => ?_⟩
  subst hos
  obtain ⟨base, hbase, hh', hrr⟩ := dmH_nil f h a h' r hs
  subst hh'
  rw [hrr, heap_get_alloc_self, hbase]

/-- C6 witness: a concrete zero-override merge. -/
theorem C6_witness :
    (Heap.get? ⟨[[("x", HVal.int 1)], [("x", HVal.int 1)]]⟩ 0 =
        Heap.get? ⟨[[("x", HVal.int 1)]]⟩ 0) ∧ (1 : Nat) ≠ 0 ∧
      (([] : List Nat) = [] →
        Heap.get? ⟨[[("x", HVal.int 1)], [("x", HVal.int 1)]]⟩ 1 =
          Heap.get? ⟨[[("x", HVal.int 1)]]⟩ 0) :=
  C6_deepmerge_base_preserved 1 ⟨[[("x", HVal.int 1)]]⟩ 0 []
    ⟨[[("x", HVal.int 1)], [("x", HVal.int 1)]]⟩ 1 (by decide)

/-- C9: the heap-level `deepmerge` never mutates any of its argument objects
at any depth: every object existing before the call (base, overrides and all
nested dictionaries live below the old heap size) is unchanged, and the
result of each (recursive) merge is a freshly allocated object at the old
heap size. -/
theorem C9_deepmerge_no_mutation (f : Nat) (h : Heap) (a : Nat) (os : List Nat)
    (h' : Heap) (r : Nat) (hs : dmH f h a os = some (h', r)) :
    (∀ i, i < h.size → h'.get? i = h.get? i) ∧ r = h.size := by
  obtain ⟨_, hunch, hr, _⟩ := dmH_frame f h a os h' r hs
  exact ⟨hunch, hr⟩

/-- C9 witness: a concrete one-override merge. -/
theorem C9_witness :
    (∀ i, i < Heap.size ⟨[[("x", HVal.int 1)], [("x", HVal.int 2), ("y", HVal.int 3)]]⟩ →
      Heap.get? ⟨[[("x", HVal.int 1)], [("x", HVal.int 2), ("y", HVal.int 3)],
        [("x", HVal.int 2), ("y", HVal.int 3)]]⟩ i =
      Heap.get? ⟨[[("x", HVal.int 1)], [("x", HVal.int 2), ("y", HVal.int 3)]]⟩ i) ∧
    (2 : Nat) = Heap.size ⟨[[("x", HVal.int 1)], [("x", HVal.int 2), ("y", HVal.int 3)]]⟩ :=
  C9_deepmerge_no_mutation 2 ⟨[[("x", HVal.int 1)], [("x", HVal.int 2), ("y", HVal.int 3)]]⟩
    0 [1] ⟨[[("x", HVal.int 1)], [("x", HVal.int 2), ("y", HVal.int 3)],
      [("x", HVal.int 2), ("y", HVal.int 3)]]⟩ 2 (by decide)

/-- C1 counterexample: with the default rename `levelname -> level` and a
static field also named `level`, the emitted object holds the record-derived
value `WARNING`, not the static value — static fields do not win a collision. -/
theorem C1_counterexample :
    aget (addFieldsCJF [("level", Val.str "static-level")] [("levelname", "level")]
        ["levelname"]
        (fun f => if f = "levelname" then Val.str "WARNING" else Val.null))
      "level" = some (Val.str "WARNING") ∧
    Val.str "WARNING" ≠ Val.str "static-level" := by
  constructor
  · rfl
  · intro hh
    simp at hh

/-- C1 (amended): static fields are injected unconditionally, but they are
added first and the record-derived field computation is layered on top, so on
a key collision the emitted JSON object holds the record-derived value; only
static keys that no renamed template-referenced field produces keep their
static values. -/
theorem C1_static_fields_order (static : PyDict) (rename : List (String × String))
    (required : List String) (record : String → Val)
    (hreq : (required.map (renameFor rename)).Nodup)
    (hst : (keysOf static).Nodup) :
    (∀ f, f ∈ required →
      aget (addFieldsCJF static rename required record) (renameFor rename f) =
        some (record f)) ∧
    (∀ k v, (k, v) ∈ static → k ∉ required.map (renameFor rename) →
      aget (addFieldsCJF static rename required record) k = some v) := by
  constructor
  · intro f hf
    exact baseAddFields_present rename record required _ f hreq hf
  · intro k v hmem hk
    rw [addFieldsCJF, baseAddFields_absent rename record required _ k hk]
    exact aget_dictUpdate_present static [] k v hst (aget_of_mem_nodup static k v hmem hst)

/-- C1 witness: on the collision key the record value is emitted; on the
non-colliding static key the static value is emitted. -/
theorem C1_witness :
    aget (addFieldsCJF [("level", Val.str "static-level"), ("program", Val.str "svc")]
        [("levelname", "level")] ["levelname"]
        (fun f => if f = "levelname" then Val.str "WARNING" else Val.null))
      (renameFor [("levelname", "level")] "levelname") =
        some ((fun f => if f = "levelname" then Val.str "WARNING" else Val.null) "levelname") ∧
    aget (addFieldsCJF [("level", Val.str "static-level"), ("program", Val.str "svc")]
        [("levelname", "level")] ["levelname"]
        (fun f => if f = "levelname" then Val.str "WARNING" else Val.null))
      "program" = some (Val.str "svc") :=
  ⟨(C1_static_fields_order [("level", Val.str "static-level"), ("program", Val.str "svc")]
      [("levelname", "level")] ["levelname"] _ (by decide) (by decide)).1
      "levelname" (by decide),
   (C1_static_fields_order [("level", Val.str "static-level"), ("program", Val.str "svc")]
      [("levelname", "level")] ["levelname"] _ (by decide) (by decide)).2
      "program" (Val.str "svc") (by simp) (by decide)⟩

/-- C4: in JSON mode the key set of the emitted object equals the renamed
template-referenced field keys united with the static field keys, and each
key's value is the corresponding record field value (for keys produced by a
referenced field) or the static value (for the remaining static keys). -/
theorem C4_json_key_set (static : PyDict) (rename : List (String × String))
    (required : List String) (record : String → Val)
    (hreq : (required.map (renameFor rename)).Nodup)
    (hst : (keysOf static).Nodup) :
    (∀ k, k ∈ keysOf (addFieldsCJF static rename required record) ↔
      (k ∈ required.map (renameFor rename) ∨ k ∈ keysOf static)) ∧
    (∀ f, f ∈ required →
      aget (addFieldsCJF static rename required record) (renameFor rename f) =
        some (record f)) ∧
    (∀ k v, (k, v) ∈ static → k ∉ required.map (renameFor rename) →
      aget (addFieldsCJF static rename required record) k = some v) := by
  refine ⟨fun k => ?_, fun f hf => ?_, fun k v hmem hk => ?_⟩
  · rw [addFieldsCJF, mem_keys_baseAddFields, mem_keys_dictUpdate]
    have hnil : k ∉ keysOf ([] : PyDict) := by simp [keysOf]
    tauto
  · exact baseAddFields_present rename record required _ f hreq hf
  · rw [addFieldsCJF, baseAddFields_absent rename record required _ k hk]
    exact aget_dictUpdate_present static [] k v hst (aget_of_mem_nodup static k v hmem hst)

/-- C4 witness: the static key is in the key set of a concrete emitted
object. -/
theorem C4_witness :
    ("program" ∈ keysOf (addFieldsCJF [("program", Val.str "svc")]
        [("levelname", "level")] ["levelname", "message"] (fun f => Val.str f)) ↔
      ("program" ∈ ["levelname", "message"].map (renameFor [("levelname", "level")]) ∨
        "program" ∈ keysOf [("program", Val.str "svc")])) :=
  (C4_json_key_set [("program", Val.str "svc")] [("levelname", "level")]
    ["levelname", "message"] (fun f => Val.str f) (by decide) (by decide)).1 "program"

/-- C7: `formatTime` turns the record's epoch timestamp into a datetime value
before the pattern is applied; with `utc = true` the value carries the UTC
zone and reads the UTC wall time of the instant, so rendering is always
UTC-relative; with `utc = false` the value carries the machine's local UTC
offset, so a pattern containing the UTC-offset specifier renders the local
offset. -/
theorem C7_formatTime_zones (created localOff : Int) :
    (formatTimeDT true created localOff).tzMin = some 0 ∧
    (formatTimeDT true created localOff).wallMicros = created ∧
    strftimeZ (formatTimeDT true created localOff) = offsetStr 0 ∧
    (formatTimeDT false created localOff).tzMin = some localOff ∧
    (formatTimeDT false created localOff).wallMicros = created + localOff * 60000000 ∧
    strftimeZ (formatTimeDT false created localOff) = offsetStr localOff := by
  refine ⟨rfl, ?_, rfl, rfl, ?_, rfl⟩
  · show created + localOff * 60000000 - localOff * 60000000 + 0 * 60000000 = created
    ring
  · show created + localOff * 60000000 - localOff * 60000000 + localOff * 60000000 =
      created + localOff * 60000000
    ring

theorem getPath_cons_dict (d : PyDict) (k : String) (r : String) (rest : List String)
    (sub : PyDict) (h : aget d k = some (Val.dict sub)) :
    getPath d (k :: r :: rest) = getPath sub (r :: rest) := by
  simp only [getPath, h]

/-- C3 counterexample: a call that supplies an extra override fragment for
the console handler's stream produces a configuration whose console handler
no longer writes to standard output, so the invariant does not hold for every
argument combination that includes an extra fragment. -/
theorem C3_counterexample :
    getPath (configureLoggingCfg "app" (Val.str "INFO") "%(message)s"
        "%H:%M:%S" true true Val.null Val.null
        (some [("handlers", Val.dict [("console", Val.dict
          [("stream", Val.str "ext://sys.stderr")])])]))
      ["handlers", "console", "stream"] = some (Val.str "ext://sys.stderr") ∧
    Val.str "ext://sys.stderr" ≠ Val.str "ext://sys.stdout" := by
  constructor
  · show getPath
      (deepmerge1 (buildCfg "app" (Val.str "INFO") "%(message)s" "%H:%M:%S" true true
        Val.null Val.null)
        [("handlers", Val.dict [("console", Val.dict
          [("stream", Val.str "ext://sys.stderr")])])])
      ["handlers", "console", "stream"] = some (Val.str "ext://sys.stderr")
    have h1 : aget
        (deepmerge1 (buildCfg "app" (Val.str "INFO") "%(message)s" "%H:%M:%S" true true
          Val.null Val.null)
          [("handlers", Val.dict [("console", Val.dict
            [("stream", Val.str "ext://sys.stderr")])])])
        "handlers" = some (Val.dict (deepmerge1
          [("console", Val.dict
            [("class", Val.str "logging.StreamHandler"), ("level", Val.str "INFO"),
             ("formatter", Val.str "json"), ("stream", Val.str "ext://sys.stdout")])]
          [("console", Val.dict [("stream", Val.str "ext://sys.stderr")])])) :=
      deepmerge1_lookup _ _ "handlers"
        (Val.dict [("console", Val.dict [("stream", Val.str "ext://sys.stderr")])])
        (by decide) rfl
    have h2 : aget
        (deepmerge1
          [("console", Val.dict
            [("class", Val.str "logging.StreamHandler"), ("level", Val.str "INFO"),
             ("formatter", Val.str "json"), ("stream", Val.str "ext://sys.stdout")])]
          [("console", Val.dict [("stream", Val.str "ext://sys.stderr")])])
        "console" = some (Val.dict (deepmerge1
          [("class", Val.str "logging.StreamHandler"), ("level", Val.str "INFO"),
           ("formatter", Val.str "json"), ("stream", Val.str "ext://sys.stdout")]
          [("stream", Val.str "ext://sys.stderr")])) :=
      deepmerge1_lookup _ _ "console"
        (Val.dict [("stream", Val.str "ext://sys.stderr")]) (by decide) rfl
    have h3 : aget
        (deepmerge1
          [("class", Val.str "logging.StreamHandler"), ("level", Val.str "INFO"),
           ("formatter", Val.str "json"), ("stream", Val.str "ext://sys.stdout")]
          [("stream", Val.str "ext://sys.stderr")])
        "stream" = some (Val.str "ext://sys.stderr") :=
      deepmerge1_lookup _ _ "stream" (Val.str "ext://sys.stderr") (by decide) rfl
    rw [getPath_cons_dict _ _ _ _ _ h1, getPath_cons_dict _ _ _ _ _ h2]
    show aget _ "stream" = _
    exact h3
  · intro hh
    simp at hh

/-- C3 (amended): after every call whose `extra` is absent or empty, the
configuration document attaches exactly the one console handler to the named
logger and that handler writes to standard output; a truthy `extra` fragment
can override the handler's stream or the logger's handler list, so the
invariant is only guaranteed for such calls. -/
theorem C3_console_invariant (name : String) (level : Val) (fmt tfmt : String)
    (utc json : Bool) (rf sf : Val) (extra : Option PyDict)
    (hfalsy : extra = none ∨ extra = some []) :
    getPath (configureLoggingCfg name level fmt tfmt utc json rf sf extra)
        ["loggers", name, "handlers"] = some (Val.list [Val.str "console"]) ∧
    getPath (configureLoggingCfg name level fmt tfmt utc json rf sf extra)
        ["handlers"] = some (Val.dict [("console", Val.dict
          [("class", Val.str "logging.StreamHandler"), ("level", level),
           ("formatter", Val.str (if json then "json" else "simple")),
           ("stream", Val.str "ext://sys.stdout")])]) ∧
    getPath (configureLoggingCfg name level fmt tfmt utc json rf sf extra)
        ["handlers", "console", "stream"] = some (Val.str "ext://sys.stdout") := by
  rcases hfalsy with he | he <;> subst he <;>
    exact ⟨by simp [configureLoggingCfg, buildCfg, getPath, aget],
      by simp [configureLoggingCfg, buildCfg, getPath, aget],
      by simp [configureLoggingCfg, buildCfg, getPath, aget]⟩

/-- C3 witness: the invariant at concrete arguments with `extra` absent. -/
theorem C3_witness :
    getPath (configureLoggingCfg "app" (Val.str "INFO") "%(message)s"
        "%H:%M:%S" true true Val.null Val.null none)
        ["loggers", "app", "handlers"] = some (Val.list [Val.str "console"]) ∧
    getPath (configureLoggingCfg "app" (Val.str "INFO") "%(message)s"
        "%H:%M:%S" true true Val.null Val.null none)
        ["handlers"] = some (Val.dict [("console", Val.dict
          [("class", Val.str "logging.StreamHandler"), ("level", Val.str "INFO"),
           ("formatter", Val.str (if true then "json" else "simple")),
           ("stream", Val.str "ext://sys.stdout")])]) ∧
    getPath (configureLoggingCfg "app" (Val.str "INFO") "%(message)s"
        "%H:%M:%S" true true Val.null Val.null none)
        ["handlers", "console", "stream"] = some (Val.str "ext://sys.stdout") :=
  C3_console_invariant "app" (Val.str "INFO") "%(message)s" "%H:%M:%S" true true
    Val.null Val.null none (Or.inl rfl)

/-- C10: an empty extra mapping is treated exactly like an absent one — the
truthiness test skips the deep-merge step for both, so the applied
configuration document is identical. -/
theorem C10_empty_extra (name : String) (level : Val) (fmt tfmt : String)
    (utc json : Bool) (rf sf : Val) :
    configureLoggingCfg name level fmt tfmt utc json rf sf (some []) =
      configureLoggingCfg name level fmt tfmt utc json rf sf none := rfl

/-- First doctest of `deepmerge`'s docstring, reproduced in the model. -/
theorem deepmerge_docstring_first :
    deepmerge
      [("foo", Val.str "bar"),
       ("more", Val.dict [("cond", Val.str "true"), ("last", Val.int 424)])]
      [[("num", Val.int 23), ("foo", Val.str "not-bar"),
        ("more", Val.dict [("additional", Val.int 333)])]] =
    [("foo", Val.str "not-bar"),
     ("more", Val.dict [("cond", Val.str "true"), ("last", Val.int 424),
                        ("additional", Val.int 333)]),
     ("num", Val.int 23)] := by
  simp [deepmerge, deepmerge1, aget, aset]

/-- Second doctest of `deepmerge`'s docstring, reproduced in the model. -/
theorem deepmerge_docstring_second :
    deepmerge
      [("l0", Val.dict [("l1", Val.str "L1"), ("l2", Val.str "L2")])]
      [[("l0", Val.dict [("l2", Val.dict [("l3", Val.str "L3")])])],
       [("foo", Val.str "bar")]] =
    [("l0", Val.dict [("l1", Val.str "L1"), ("l2", Val.dict [("l3", Val.str "L3")])]),
     ("foo", Val.str "bar")] := by
  simp [deepmerge, deepmerge1, aget, aset]
